import Mathlib

/-!
Verification of the go-shecomp library (AUTOSAR SHE compression function).

The development shallowly embeds `shecomp.go`: bytes are `Nat` values below
256, byte strings are `List Nat`, and the hexadecimal input stream is a
`List Char`.  The streaming readers (`paddingReader.block`,
`noPaddingReader.block`) become state-passing functions, and the `compress`
loop becomes a fuel-indexed recursion (the fuel chosen at the entry points
strictly dominates the number of loop iterations, so the artificial fuel-0
base case is unreachable).  The AES-128 block cipher used through Go's
`crypto/aes` is modelled by a standard executable AES-128 encryption
(FIPS-197), validated below against the repository's own test vector.
-/

namespace Shecomp

/-! ## AES-128 (model of the external dependency `crypto/aes`) -/

/-- Standard AES S-box (FIPS-197), as byte values. -/
def sbox : List Nat :=
  [99, 124, 119, 123, 242, 107, 111, 197, 48, 1, 103, 43, 254, 215, 171, 118,
   202, 130, 201, 125, 250, 89, 71, 240, 173, 212, 162, 175, 156, 164, 114, 192,
   183, 253, 147, 38, 54, 63, 247, 204, 52, 165, 229, 241, 113, 216, 49, 21,
   4, 199, 35, 195, 24, 150, 5, 154, 7, 18, 128, 226, 235, 39, 178, 117,
   9, 131, 44, 26, 27, 110, 90, 160, 82, 59, 214, 179, 41, 227, 47, 132,
   83, 209, 0, 237, 32, 252, 177, 91, 106, 203, 190, 57, 74, 76, 88, 207,
   208, 239, 170, 251, 67, 77, 51, 133, 69, 249, 2, 127, 80, 60, 159, 168,
   81, 163, 64, 143, 146, 157, 56, 245, 188, 182, 218, 33, 16, 255, 243, 210,
   205, 12, 19, 236, 95, 151, 68, 23, 196, 167, 126, 61, 100, 93, 25, 115,
   96, 129, 79, 220, 34, 42, 144, 136, 70, 238, 184, 20, 222, 94, 11, 219,
   224, 50, 58, 10, 73, 6, 36, 92, 194, 211, 172, 98, 145, 149, 228, 121,
   231, 200, 55, 109, 141, 213, 78, 169, 108, 86, 244, 234, 101, 122, 174, 8,
   186, 120, 37, 46, 28, 166, 180, 198, 232, 221, 116, 31, 75, 189, 139, 138,
   112, 62, 181, 102, 72, 3, 246, 14, 97, 53, 87, 185, 134, 193, 29, 158,
   225, 248, 152, 17, 105, 217, 142, 148, 155, 30, 135, 233, 206, 85, 40, 223,
   140, 161, 137, 13, 191, 230, 66, 104, 65, 153, 45, 15, 176, 84, 187, 22]

/-- S-box lookup. -/
def sboxAt (b : Nat) : Nat := sbox.getD b 0

/-- Multiplication by x in GF(2^8) with the AES reduction polynomial. -/
def xtime (b : Nat) : Nat := if b < 128 then 2 * b else (2 * b) % 256 ^^^ 27

/-- AES key-schedule round constants. -/
def rcon : List Nat := [1, 2, 4, 8, 16, 32, 64, 128, 27, 54]

/-- Byte-wise xor of two byte strings (length of the shorter one). -/
def xorB (a b : List Nat) : List Nat := List.zipWith (fun x y => x ^^^ y) a b

def rotWord (w : List Nat) : List Nat := w.drop 1 ++ w.take 1

def subWord (w : List Nat) : List Nat := w.map sboxAt

def nextWord (ws : List (List Nat)) (i : Nat) : List Nat :=
  let prev := ws.getD (i - 1) []
  let t := if i % 4 = 0 then xorB (subWord (rotWord prev)) [rcon.getD (i / 4 - 1) 0, 0, 0, 0]
           else prev
  xorB (ws.getD (i - 4) []) t

/-- AES-128 key expansion: the 44 four-byte words of the key schedule. -/
def keyWords (key : List Nat) : List (List Nat) :=
  let w0 := (List.range 4).map (fun i =>
    [key.getD (4 * i) 0, key.getD (4 * i + 1) 0, key.getD (4 * i + 2) 0, key.getD (4 * i + 3) 0])
  (List.range 40).foldl (fun ws j => ws ++ [nextWord ws (j + 4)]) w0

/-- Round key `r` as 16 bytes in column order. -/
def roundKey (ws : List (List Nat)) (r : Nat) : List Nat :=
  (List.range 16).map (fun j => (ws.getD (4 * r + j / 4) []).getD (j % 4) 0)

/-- ShiftRows on the flat 16-byte state (byte `r + 4c` is state row r, column c). -/
def shiftRows (s : List Nat) : List Nat :=
  (List.range 16).map (fun i => s.getD ((i + 4 * (i % 4)) % 16) 0)

def mixCol (a : List Nat) : List Nat :=
  [xtime (a.getD 0 0) ^^^ (xtime (a.getD 1 0) ^^^ a.getD 1 0) ^^^ a.getD 2 0 ^^^ a.getD 3 0,
   a.getD 0 0 ^^^ xtime (a.getD 1 0) ^^^ (xtime (a.getD 2 0) ^^^ a.getD 2 0) ^^^ a.getD 3 0,
   a.getD 0 0 ^^^ a.getD 1 0 ^^^ xtime (a.getD 2 0) ^^^ (xtime (a.getD 3 0) ^^^ a.getD 3 0),
   (xtime (a.getD 0 0) ^^^ a.getD 0 0) ^^^ a.getD 1 0 ^^^ a.getD 2 0 ^^^ xtime (a.getD 3 0)]

def mixColumns (s : List Nat) : List Nat :=
  mixCol (s.take 4) ++ mixCol ((s.drop 4).take 4) ++ mixCol ((s.drop 8).take 4) ++
    mixCol ((s.drop 12).take 4)

def aesRound (rk s : List Nat) : List Nat := xorB (mixColumns (shiftRows (subWord s))) rk

/-- AES-128 single-block encryption of `pt` under `key` (both 16 bytes). -/
def aesEncrypt (key pt : List Nat) : List Nat :=
  let ws := keyWords key
  let s0 := xorB pt (roundKey ws 0)
  let s9 := (List.range 9).foldl (fun s r => aesRound (roundKey ws (r + 1)) s) s0
  xorB (shiftRows (subWord s9)) (roundKey ws 10)

/-! ## Hex codec (model of `encoding/hex` as used in `hexDecode` / `hex.Encode`) -/

/-- Value of one hex digit; `none` on any non-hex character (as Go's `fromHexChar`). -/
def hexDigit (c : Char) : Option Nat :=
  if '0' ≤ c ∧ c ≤ '9' then some (c.toNat - 48)
  else if 'a' ≤ c ∧ c ≤ 'f' then some (c.toNat - 87)
  else if 'A' ≤ c ∧ c ≤ 'F' then some (c.toNat - 55)
  else none

/-- Model of `hex.Decode`: fails on odd length or any invalid character. -/
def hexDecodeList : List Char → Option (List Nat)
  | [] => some []
  | [_] => none
  | a :: b :: rest =>
    match hexDigit a, hexDigit b with
    | some hi, some lo =>
      match hexDecodeList rest with
      | some tl => some ((16 * hi + lo) :: tl)
      | none => none
    | _, _ => none

def hexDigitChar (n : Nat) : Char := if n < 10 then Char.ofNat (48 + n) else Char.ofNat (87 + n)

/-- Model of `hex.Encode` (lower-case output). -/
def hexEncode (bs : List Nat) : List Char :=
  bs.foldr (fun b acc => hexDigitChar (b / 16) :: hexDigitChar (b % 16) :: acc) []

/-! ## shecomp.go -/

def blockSize : Nat := 16

def maxBitLength : Nat := 2 ^ 40 - 1

/-- Errors of the package.  `eofE` stands for `io.EOF`, `large` for
`ErrLargePlainText`, `decode` for a `hex.Decode` error, `needPad` for
`ErrNeedPadding` and `badLen` for the length-mismatch error in `encrypt`. -/
inductive BErr where
  | eofE
  | large
  | decode
  | needPad
  | badLen
deriving DecidableEq

/-- Model of `padding` (shecomp.go lines 197-211).  `messageByteLen` is the
Go `uint64` argument, hence the `% 2 ^ 64` on the 64-bit multiplication. -/
def padding (b : List Nat) (messageByteLen : Nat) : List Nat :=
  let padMinBitLen := 8 * b.length + 1 + 40
  let padByteLen := (padMinBitLen / 128 + 1) * 128 / 8 - b.length
  let pad0 := List.replicate padByteLen 0
  let pad1 := (List.range 5).foldl
    (fun pad i => pad.set (pad.length - 1 - i)
      (0xff &&& (((messageByteLen * 8) % 2 ^ 64) >>> (8 * i)))) pad0
  pad1.set 0 (0x80 ||| pad1.headD 0)

/-- Model of `xor` (length check, then byte-wise xor). -/
def goXor (a b : List Nat) : Option (List Nat) :=
  if a.length = b.length then some (List.zipWith (fun x y => x ^^^ y) a b) else none

/-- Model of `encrypt` (shecomp.go lines 171-184).  `aes.NewCipher` cannot fail
for a 16-byte key, so only the explicit length check can produce an error;
the ignored `xor` errors are modelled by `Option.getD` as Go's discarded
second return value leaves `nil` on failure. -/
def encrypt (src previous : List Nat) : Except BErr (List Nat) :=
  if src.length ≠ blockSize ∨ previous.length ≠ blockSize then .error .badLen
  else
    let e0 := aesEncrypt previous src
    let e1 := (goXor e0 src).getD []
    .ok ((goXor previous e1).getD [])

/-- State of a `paddingReader`: remaining hex characters of the stream,
`readBytes`, the `eof` flag and the computed `pad`. -/
structure PRState where
  rest : List Char
  readBytes : Nat
  eof : Bool
  pad : List Nat

/-- Model of `paddingReader.block` (shecomp.go lines 69-96).  A call reads the
next 32 hex characters (`hex.EncodedLen(blockSize)`); an exhausted stream is
Go's `io.EOF` from `Read`, which the method deliberately ignores and treats
as a 0-byte read.  `copy(dst, ...)` into the 16-byte destination is modelled
by `take blockSize`. -/
def prBlock (st : PRState) : Except BErr (List Nat × PRState) :=
  if st.eof then .error .eofE
  else if st.rest.isEmpty then
    if st.readBytes * 8 % 2 ^ 64 > maxBitLength then .error .large
    else
      let pad := padding [] st.readBytes
      .ok ((([] : List Nat) ++ pad).take blockSize, { st with eof := true, pad := pad })
  else
    match hexDecodeList (st.rest.take 32) with
    | none => .error .decode
    | some bs =>
      let readBytes := (st.readBytes + bs.length) % 2 ^ 64
      if readBytes * 8 % 2 ^ 64 > maxBitLength then .error .large
      else if bs.length = blockSize then
        .ok (bs, { st with rest := st.rest.drop 32, readBytes := readBytes })
      else
        let pad := padding bs readBytes
        .ok ((bs ++ pad).take blockSize,
             { st with rest := st.rest.drop 32, readBytes := readBytes, eof := true, pad := pad })

/-- The `compress` loop (shecomp.go lines 101-119) over a `paddingReader`,
indexed by fuel; the entry point supplies more fuel than the loop can
consume, so the fuel-0 case is unreachable. -/
def compressLoopP : Nat → PRState → List Nat → Except BErr (List Nat)
  | 0, _, out => .ok out
  | fuel + 1, st, out =>
    match prBlock st with
    | .error .eofE => .ok out
    | .error e => .error e
    | .ok (src, st') =>
      match encrypt src out with
      | .error e => .error e
      | .ok o => compressLoopP fuel st' o

/-- Initial reader state for an input stream. -/
def initPR (s : List Char) : PRState := ⟨s, 0, false, []⟩

/-- Model of the public `Compress` (shecomp.go lines 125-134). -/
def Compress (s : List Char) : Except BErr (List Char) :=
  match compressLoopP (s.length + 3) (initPR s) (List.replicate blockSize 0) with
  | .error e => .error e
  | .ok c => .ok (hexEncode c)

/-- The block-consuming loop of the public `Padding` (shecomp.go lines 141-155). -/
def padLoopP : Nat → PRState → Except BErr PRState
  | 0, st => .ok st
  | fuel + 1, st =>
    match prBlock st with
    | .error .eofE => .ok st
    | .error e => .error e
    | .ok (_, st') => padLoopP fuel st'

/-- Model of the public `Padding`: run the reader to EOF, return the hex
encoding of the computed padding bytes. -/
def Padding (s : List Char) : Except BErr (List Char) :=
  match padLoopP (s.length + 3) (initPR s) with
  | .error e => .error e
  | .ok st => .ok (hexEncode st.pad)

/-- Model of `noPaddingReader.block` (shecomp.go lines 51-60). -/
def npBlock (rest : List Char) : Except BErr (List Nat × List Char) :=
  if rest.isEmpty then .error .eofE
  else
    match hexDecodeList (rest.take 32) with
    | none => .error .decode
    | some bs =>
      if bs.length < blockSize then .error .needPad
      else .ok (bs, rest.drop 32)

/-- The `compress` loop over a `noPaddingReader`. -/
def npLoop : Nat → List Char → List Nat → Except BErr (List Nat)
  | 0, _, out => .ok out
  | fuel + 1, rest, out =>
    match npBlock rest with
    | .error .eofE => .ok out
    | .error e => .error e
    | .ok (src, rest') =>
      match encrypt src out with
      | .error e => .error e
      | .ok o => npLoop fuel rest' o

/-- Model of the public `CompressWithoutPadding` (shecomp.go lines 160-169). -/
def CompressWithoutPadding (s : List Char) : Except BErr (List Char) :=
  match npLoop (s.length + 2) s (List.replicate blockSize 0) with
  | .error e => .error e
  | .ok c => .ok (hexEncode c)

/-! ## Specification-side definitions

These definitions follow the specification's words (Miyaguchi-Preneel
chaining step; fold over all blocks of the padded message; big-endian
length field) and are used to compare the code against the spec. -/

/-- The chaining step exactly as the spec words it:
`S_next = S XOR (E XOR B)` with `E = AES(key = S, plaintext = B)`. -/
def mpStep (S B : List Nat) : List Nat := xorB S (xorB (aesEncrypt S B) B)

/-- Split a byte string into consecutive 16-byte blocks (fuel-indexed). -/
def chunk16 : Nat → List Nat → List (List Nat)
  | 0, _ => []
  | _, [] => []
  | f + 1, l => l.take 16 :: chunk16 f (l.drop 16)

/-- The compression output the spec describes: fold the chaining step over
the full blocks of the message followed by every 16-byte block of
`remainder ++ padding`, starting from the all-zero state. -/
def sheCompressSpec (bytes : List Nat) : List Nat :=
  let r := bytes.drop (16 * (bytes.length / 16))
  let padded := bytes ++ padding r bytes.length
  (chunk16 padded.length padded).foldl mpStep (List.replicate 16 0)

/-- Big-endian 5-byte (40-bit) encoding of a bit-length. -/
def beBytes5 (bits : Nat) : List Nat :=
  [0xff &&& (bits >>> 32), 0xff &&& (bits >>> 24), 0xff &&& (bits >>> 16),
   0xff &&& (bits >>> 8), 0xff &&& bits]

/-- Value of a byte string read as a big-endian unsigned integer. -/
def beVal (l : List Nat) : Nat := l.foldl (fun a d => 256 * a + d) 0

/-- Hex input of the specification test vector (two full blocks). -/
def c4input : List Char := ("6bc1bee22e409f96e93d7e117393172aae2d8a571e03ac9c9eb76fac45af8e51").toList

/-- Hex input of 22 zero characters: an 11-byte message, whose padded form
spans two 16-byte blocks. -/
def c1input : List Char := List.replicate 22 '0'

/-- Decidable equality for `Except`, needed to evaluate the model on
concrete inputs inside proofs. -/
instance {ε α : Type} [DecidableEq ε] [DecidableEq α] : DecidableEq (Except ε α)
  | .error e, .error f =>
    if h : e = f then .isTrue (by rw [h]) else .isFalse (fun c => h (Except.error.inj c))
  | .error _, .ok _ => .isFalse (fun c => Except.noConfusion c)
  | .ok _, .error _ => .isFalse (fun c => Except.noConfusion c)
  | .ok x, .ok y =>
    if h : x = y then .isTrue (by rw [h]) else .isFalse (fun c => h (Except.ok.inj c))

end Shecomp

namespace Shecomp

theorem and255 (x : Nat) : 255 &&& x = x % 256 := by
  rw [Nat.and_comm]
  have := Nat.and_pow_two_sub_one_eq_mod x 8
  norm_num at this
  exact this

theorem length_foldl_set (l : List Nat) (p : List Nat) (v : Nat → Nat) :
    (l.foldl (fun q i => q.set (q.length - 1 - i) (v i)) p).length = p.length := by
  induction l generalizing p with
  | nil => rfl
  | cons x t ih =>
    simp only [List.foldl_cons]
    rw [ih]
    exact List.length_set p _ _

theorem padding_length (b : List Nat) (m : Nat) :
    (padding b m).length = ((8 * b.length + 1 + 40) / 128 + 1) * 128 / 8 - b.length := by
  simp only [padding]
  rw [List.length_set, length_foldl_set, List.length_replicate]

theorem foldl_set_cons (l : List Nat) (x : Nat) (p : List Nat) (v : Nat → Nat)
    (h : ∀ i ∈ l, i < p.length) :
    l.foldl (fun q i => q.set (q.length - 1 - i) (v i)) (x :: p)
      = x :: l.foldl (fun q i => q.set (q.length - 1 - i) (v i)) p := by
  induction l generalizing p with
  | nil => rfl
  | cons j t ih =>
    have hj : j < p.length := h j (by simp)
    have hpos : (x :: p).length - 1 - j = (p.length - 1 - j) + 1 := by
      simp only [List.length_cons]
      omega
    simp only [List.foldl_cons, hpos]
    rw [show (x :: p).set ((p.length - 1 - j) + 1) (v j) = x :: p.set (p.length - 1 - j) (v j)
      from rfl]
    rw [ih]
    intro i hi
    simp only [List.length_set]
    exact h i (List.mem_cons_of_mem _ hi)

theorem foldl_set_last5 (K : Nat) (v : Nat → Nat) :
    (List.range 5).foldl (fun q i => q.set (q.length - 1 - i) (v i)) (List.replicate (K + 5) 0)
      = List.replicate K 0 ++ [v 4, v 3, v 2, v 1, v 0] := by
  induction K with
  | zero =>
    show (List.range 5).foldl _ [0, 0, 0, 0, 0] = [v 4, v 3, v 2, v 1, v 0]
    rw [show List.range 5 = [0, 1, 2, 3, 4] from rfl]
    simp [List.set]
  | succ K ih =>
    rw [show List.replicate (K + 1 + 5) (0 : Nat) = 0 :: List.replicate (K + 5) 0 from rfl]
    rw [foldl_set_cons _ _ _ _ (by intro i hi; simp only [List.length_replicate]; simp at hi; omega)]
    rw [ih]
    rfl

theorem padding_struct (b : List Nat) (m : Nat) :
    padding b m = 128 :: (List.replicate
        (((8 * b.length + 1 + 40) / 128 + 1) * 128 / 8 - b.length - 6) 0 ++
      [0xff &&& (((m * 8) % 2 ^ 64) >>> (8 * 4)), 0xff &&& (((m * 8) % 2 ^ 64) >>> (8 * 3)),
       0xff &&& (((m * 8) % 2 ^ 64) >>> (8 * 2)), 0xff &&& (((m * 8) % 2 ^ 64) >>> (8 * 1)),
       0xff &&& (((m * 8) % 2 ^ 64) >>> (8 * 0))]) := by
  simp only [padding]
  generalize hL : ((8 * b.length + 1 + 40) / 128 + 1) * 128 / 8 - b.length = L
  have h6 : 6 ≤ L := by omega
  rw [show List.replicate L (0 : Nat) = List.replicate ((L - 5) + 5) 0 from by congr 1; omega]
  rw [foldl_set_last5 (L - 5) (fun i => 0xff &&& (((m * 8) % 2 ^ 64) >>> (8 * i)))]
  rw [show List.replicate (L - 5) (0 : Nat) = 0 :: List.replicate (L - 6) 0 from by
    rw [show L - 5 = (L - 6) + 1 from by omega, List.replicate_succ]]
  simp only [List.cons_append, List.headD]
  rw [show (128 ||| 0 : Nat) = 128 from by decide]
  rfl


theorem beVal_beBytes5 (x : Nat) (hx : x < 2 ^ 40) : beVal (beBytes5 x) = x := by
  simp only [beBytes5, beVal, List.foldl_cons, List.foldl_nil, and255,
    Nat.shiftRight_eq_div_pow]
  omega

/-- C2 counterexample: the claim "the padding has length at least 6 and at
most 16 bytes for every remainder of length 0 through 15" is false on the
code: an 11-byte remainder yields a 21-byte padding. -/
theorem claim_C2_counterexample :
    (padding (List.replicate 11 0) 11).length = 21 ∧
    ¬ (padding (List.replicate 11 0) 11).length ≤ 16 := by
  decide

/-- C2 amended: for every remainder of length 0 through 15 bytes, the padding
computed by the padding calculator has length at least 6 and at most 21
bytes (lengths 17 to 21 arise for remainders of 11 to 15 bytes, whose padded
final portion spans two blocks). -/
theorem claim_C2 (b : List Nat) (m : Nat) (hb : b.length ≤ 15) :
    6 ≤ (padding b m).length ∧ (padding b m).length ≤ 21 := by
  rw [padding_length]
  omega

/-- Witness for C2 at a concrete 3-byte remainder. -/
theorem claim_C2_witness :
    6 ≤ (padding [1, 2, 3] 3).length ∧ (padding [1, 2, 3] 3).length ≤ 21 :=
  claim_C2 [1, 2, 3] 3 (by decide)

/-- C5: for every remainder of length 0 through 15 and every message whose
bit-length is below 2 ^ 40, the padding is the byte 0x80 (the marker bit set
by bitwise OR into a zero byte), then zero bytes, then the 5-byte big-endian
encoding of the total message bit-length; and reading those last 5 bytes as
a big-endian unsigned integer gives back exactly the bit-length. -/
theorem claim_C5 (b : List Nat) (m : Nat) (hb : b.length ≤ 15) (hm : 8 * m < 2 ^ 40) :
    padding b m = 128 :: (List.replicate ((padding b m).length - 6) 0 ++ beBytes5 (8 * m))
      ∧ beVal (beBytes5 (8 * m)) = 8 * m := by
  constructor
  · have h8 : (m * 8) % 2 ^ 64 = 8 * m := by
      rw [Nat.mod_eq_of_lt (by omega), Nat.mul_comm]
    rw [padding_length]
    have := padding_struct b m
    rw [h8] at this
    rw [this]
    simp only [beBytes5]
    norm_num
  · exact beVal_beBytes5 _ hm

/-- Witness for C5 at a concrete 1-byte remainder. -/
theorem claim_C5_witness :
    padding [7] 1 = 128 :: (List.replicate ((padding [7] 1).length - 6) 0 ++ beBytes5 (8 * 1))
      ∧ beVal (beBytes5 (8 * 1)) = 8 * 1 :=
  claim_C5 [7] 1 (by decide) (by decide)

/-- C6: for every remainder of length 0 through 15, remainder length plus
padding length is a positive multiple of 16, and a zero-length remainder
gets a full 16-byte padding block, never an empty one. -/
theorem claim_C6 (b : List Nat) (m : Nat) (hb : b.length ≤ 15) :
    (b.length + (padding b m).length) % 16 = 0 ∧
    0 < b.length + (padding b m).length ∧
    (b.length = 0 → (padding b m).length = 16) := by
  rw [padding_length]
  omega

/-- Witness for C6 at the empty remainder. -/
theorem claim_C6_witness :
    (([] : List Nat).length + (padding [] 0).length) % 16 = 0 ∧
    0 < ([] : List Nat).length + (padding [] 0).length ∧
    (([] : List Nat).length = 0 → (padding [] 0).length = 16) :=
  claim_C6 [] 0 (by decide)


theorem hexDecodeList_length : ∀ (s : List Char) (bs : List Nat),
    hexDecodeList s = some bs → s.length = 2 * bs.length
  | [], bs, h => by
    simp only [hexDecodeList, Option.some.injEq] at h
    subst h
    rfl
  | [_], bs, h => by
    simp [hexDecodeList] at h
  | a :: b :: t, bs, h => by
    rcases ha : hexDigit a with _ | hi <;> rcases hb : hexDigit b with _ | lo <;>
      rcases ht : hexDecodeList t with _ | tl <;>
        simp [hexDecodeList, ha, hb, ht] at h
    have := hexDecodeList_length t tl ht
    subst h
    simp only [List.length_cons]
    omega

theorem hexDecodeList_combine : ∀ (k : Nat) (s : List Char) (a b2 : List Nat),
    hexDecodeList (s.take (2 * k)) = some a → hexDecodeList (s.drop (2 * k)) = some b2 →
    hexDecodeList s = some (a ++ b2)
  | 0, s, a, b2, h1, h2 => by
    simp only [Nat.mul_zero, List.take_zero, List.drop_zero, hexDecodeList,
      Option.some.injEq] at h1 h2
    subst h1
    simpa using h2
  | k + 1, [], a, b2, h1, h2 => by
    simp only [List.take_nil, List.drop_nil, hexDecodeList, Option.some.injEq] at h1 h2
    subst h1
    subst h2
    rfl
  | k + 1, [c], a, b2, h1, h2 => by
    simp [show 2 * (k + 1) = 2 * k + 1 + 1 from by ring, List.take_succ_cons,
      List.take_nil, hexDecodeList] at h1
  | k + 1, c :: d :: t, a, b2, h1, h2 => by
    rw [show 2 * (k + 1) = 2 * k + 1 + 1 from by ring] at h1 h2
    simp only [List.take_succ_cons, List.drop_succ_cons] at h1 h2
    rcases hc : hexDigit c with _ | hi <;> rcases hd : hexDigit d with _ | lo <;>
      rcases ht : hexDecodeList (t.take (2 * k)) with _ | a1 <;>
        simp [hexDecodeList, hc, hd, ht] at h1
    have := hexDecodeList_combine k t a1 b2 ht h2
    subst h1
    simp [hexDecodeList, hc, hd, this]

theorem hexDecodeList_take_drop : ∀ (k : Nat) (s : List Char) (bs : List Nat),
    hexDecodeList s = some bs →
    hexDecodeList (s.take (2 * k)) = some (bs.take k) ∧
    hexDecodeList (s.drop (2 * k)) = some (bs.drop k)
  | 0, s, bs, h => by
    exact ⟨by simp [hexDecodeList], by simpa using h⟩
  | k + 1, [], bs, h => by
    simp only [hexDecodeList, Option.some.injEq] at h
    subst h
    simp [hexDecodeList]
  | k + 1, [_], bs, h => by
    simp [hexDecodeList] at h
  | k + 1, c :: d :: t, bs, h => by
    rcases hc : hexDigit c with _ | hi <;> rcases hd : hexDigit d with _ | lo <;>
      rcases ht : hexDecodeList t with _ | tl <;>
        simp [hexDecodeList, hc, hd, ht] at h
    subst h
    have ih := hexDecodeList_take_drop k t tl ht
    rw [show 2 * (k + 1) = 2 * k + 1 + 1 from by ring]
    simp only [List.take_succ_cons, List.drop_succ_cons, List.take_succ_cons]
    constructor
    · simp only [hexDecodeList, hc, hd, ih.1]
    · exact ih.2

theorem aesEncrypt_length (key pt : List Nat) : (aesEncrypt key pt).length = 16 := by
  simp [aesEncrypt, xorB, shiftRows, roundKey, List.length_zipWith]

theorem mpStep_length (S B : List Nat) (hS : S.length = 16) (hB : B.length = 16) :
    (mpStep S B).length = 16 := by
  simp [mpStep, xorB, List.length_zipWith, aesEncrypt_length, hS, hB]

theorem encrypt_eq_mpStep (src prev : List Nat) (hs : src.length = 16) (hp : prev.length = 16) :
    encrypt src prev = .ok (mpStep prev src) := by
  have h1 : (aesEncrypt prev src).length = src.length := by rw [aesEncrypt_length, hs]
  have h2 : (List.zipWith (fun x y => x ^^^ y) (aesEncrypt prev src) src).length = 16 := by
    simp [List.length_zipWith, aesEncrypt_length, hs]
  simp only [encrypt, blockSize, hs, hp, goXor, h1, if_true, mpStep, xorB]
  rw [if_neg (by simp)]
  simp [h2, hp]


theorem padding_nil_length (rb : Nat) : (padding [] rb).length = 16 := by
  rw [padding_length]
  norm_num

theorem prBlock_nil (rb : Nat) (pad0 : List Nat) (hlt : rb * 8 < 2 ^ 64)
    (hle : rb * 8 ≤ maxBitLength) :
    prBlock ⟨[], rb, false, pad0⟩ =
      .ok ((padding [] rb).take blockSize, ⟨[], rb, true, padding [] rb⟩) := by
  unfold prBlock
  dsimp only
  rw [if_neg (by simp), if_pos (by simp), Nat.mod_eq_of_lt hlt, if_neg (by omega),
    List.nil_append]

theorem prBlock_nil_large (rb : Nat) (pad0 : List Nat) (hlt : rb * 8 < 2 ^ 64)
    (hgt : maxBitLength < rb * 8) :
    prBlock ⟨[], rb, false, pad0⟩ = .error .large := by
  unfold prBlock
  dsimp only
  rw [if_neg (by simp), if_pos (by simp), Nat.mod_eq_of_lt hlt, if_pos (by omega)]

theorem prBlock_decodeFail (c : Char) (t : List Char) (rb : Nat) (pad0 : List Nat)
    (hdec : hexDecodeList ((c :: t).take 32) = none) :
    prBlock ⟨c :: t, rb, false, pad0⟩ = .error .decode := by
  unfold prBlock
  dsimp only
  rw [if_neg (by simp), if_neg (by simp), hdec]

theorem prBlock_chunk (c : Char) (t : List Char) (rb : Nat) (pad0 : List Nat) (a : List Nat)
    (hdec : hexDecodeList ((c :: t).take 32) = some a) (hlt : rb + a.length < 2 ^ 61)
    (hle : (rb + a.length) * 8 ≤ maxBitLength) :
    prBlock ⟨c :: t, rb, false, pad0⟩ =
      (if a.length = blockSize then
        .ok (a, ⟨(c :: t).drop 32, rb + a.length, false, pad0⟩)
      else
        .ok ((a ++ padding a (rb + a.length)).take blockSize,
          ⟨(c :: t).drop 32, rb + a.length, true, padding a (rb + a.length)⟩)) := by
  unfold prBlock
  dsimp only
  rw [if_neg (by simp), if_neg (by simp), hdec]
  dsimp only
  rw [Nat.mod_eq_of_lt (show rb + a.length < 2 ^ 64 from by omega),
    Nat.mod_eq_of_lt (show (rb + a.length) * 8 < 2 ^ 64 from by omega), if_neg (by omega)]

theorem prBlock_chunk_large (c : Char) (t : List Char) (rb : Nat) (pad0 : List Nat)
    (a : List Nat) (hdec : hexDecodeList ((c :: t).take 32) = some a)
    (hlt : rb + a.length < 2 ^ 61) (hgt : maxBitLength < (rb + a.length) * 8) :
    prBlock ⟨c :: t, rb, false, pad0⟩ = .error .large := by
  unfold prBlock
  dsimp only
  rw [if_neg (by simp), if_neg (by simp), hdec]
  dsimp only
  rw [Nat.mod_eq_of_lt (show rb + a.length < 2 ^ 64 from by omega),
    Nat.mod_eq_of_lt (show (rb + a.length) * 8 < 2 ^ 64 from by omega), if_pos (by omega)]

theorem npBlock_decodeFail (c : Char) (t : List Char)
    (hdec : hexDecodeList ((c :: t).take 32) = none) :
    npBlock (c :: t) = .error .decode := by
  unfold npBlock
  rw [if_neg (by simp), hdec]

theorem npBlock_chunk (c : Char) (t : List Char) (a : List Nat)
    (hdec : hexDecodeList ((c :: t).take 32) = some a) :
    npBlock (c :: t) =
      (if a.length < blockSize then .error .needPad else .ok (a, (c :: t).drop 32)) := by
  unfold npBlock
  rw [if_neg (by simp), hdec]


theorem compressLoopP_eof (fuel : Nat) (st : PRState) (out : List Nat)
    (h : st.eof = true) (hf : 1 ≤ fuel) :
    compressLoopP fuel st out = .ok out := by
  obtain ⟨f, rfl⟩ : ∃ f, fuel = f + 1 := ⟨fuel - 1, by omega⟩
  simp [compressLoopP, prBlock, h]

theorem compressLoopP_ok : ∀ (fuel : Nat) (rest : List Char) (rb : Nat) (pad0 : List Nat)
    (bs out : List Nat),
    hexDecodeList rest = some bs → out.length = 16 →
    rest.length + 2 ≤ fuel → 8 * (rb + bs.length) ≤ maxBitLength →
    ∃ o, compressLoopP fuel ⟨rest, rb, false, pad0⟩ out = .ok o ∧ o.length = 16
  | 0, rest, rb, pad0, bs, out, hdec, hout, hfuel, hmax => by omega
  | fuel + 1, [], rb, pad0, bs, out, hdec, hout, hfuel, hmax => by
    have hbs : bs = [] := by simpa [hexDecodeList] using hdec.symm
    subst hbs
    have hmax' : rb * 8 ≤ maxBitLength := by
      simp only [List.length_nil, maxBitLength] at hmax ⊢
      omega
    have hlt : rb * 8 < 2 ^ 64 := by
      simp only [List.length_nil, maxBitLength] at hmax
      omega
    have hpb := prBlock_nil rb pad0 hlt hmax'
    have hblen : ((padding [] rb).take blockSize).length = 16 := by
      simp [List.length_take, padding_nil_length, blockSize]
    have henc := encrypt_eq_mpStep _ out hblen hout
    refine ⟨mpStep out ((padding [] rb).take blockSize), ?_, mpStep_length _ _ hout hblen⟩
    simp only [compressLoopP, hpb, henc]
    exact compressLoopP_eof fuel _ _ rfl (by simp at hfuel; omega)
  | fuel + 1, c :: t, rb, pad0, bs, out, hdec, hout, hfuel, hmax => by
    have hlen := hexDecodeList_length _ _ hdec
    have htd := hexDecodeList_take_drop 16 (c :: t) bs hdec
    rw [show (2 : Nat) * 16 = 32 from rfl] at htd
    have hlt : rb + (bs.take 16).length < 2 ^ 61 := by
      simp only [List.length_take, maxBitLength] at hmax ⊢
      omega
    have hle : (rb + (bs.take 16).length) * 8 ≤ maxBitLength := by
      simp only [List.length_take, maxBitLength] at hmax ⊢
      omega
    have hpb := prBlock_chunk c t rb pad0 (bs.take 16) htd.1 hlt hle
    by_cases hb16 : 16 ≤ bs.length
    · have hn16 : (bs.take 16).length = 16 := by
        simp only [List.length_take]
        omega
      rw [if_pos (show (bs.take 16).length = blockSize from by rw [hn16]; rfl)] at hpb
      have henc := encrypt_eq_mpStep (bs.take 16) out hn16 hout
      have ih := compressLoopP_ok fuel ((c :: t).drop 32) (rb + (bs.take 16).length) pad0
        (bs.drop 16) (mpStep out (bs.take 16)) htd.2 (mpStep_length _ _ hout hn16)
        (by simp only [List.length_drop, List.length_cons] at hfuel ⊢; omega)
        (by simp only [List.length_drop, List.length_take, maxBitLength] at hmax ⊢; omega)
      obtain ⟨o, ho, holen⟩ := ih
      refine ⟨o, ?_, holen⟩
      simp only [compressLoopP, hpb, henc]
      exact ho
    · have hbs : bs.take 16 = bs := List.take_of_length_le (by omega)
      have hneq : ¬ ((bs.take 16).length = blockSize) := by
        simp only [List.length_take, blockSize]
        omega
      rw [if_neg hneq, hbs] at hpb
      have hplen : ((bs ++ padding bs (rb + bs.length)).take blockSize).length = 16 := by
        rw [List.length_take, List.length_append, padding_length]
        have hb15 : bs.length ≤ 15 := by omega
        simp only [blockSize]
        omega
      have henc := encrypt_eq_mpStep _ out hplen hout
      refine ⟨mpStep out ((bs ++ padding bs (rb + bs.length)).take blockSize), ?_,
        mpStep_length _ _ hout hplen⟩
      simp only [compressLoopP, hpb, henc]
      exact compressLoopP_eof fuel _ _ rfl (by simp at hfuel; omega)


theorem compressLoopP_large : ∀ (fuel : Nat) (rest : List Char) (rb : Nat) (pad0 : List Nat)
    (bs out : List Nat),
    hexDecodeList rest = some bs → out.length = 16 →
    rest.length + 2 ≤ fuel → 8 * rb ≤ maxBitLength → maxBitLength < 8 * (rb + bs.length) →
    compressLoopP fuel ⟨rest, rb, false, pad0⟩ out = .error .large
  | 0, rest, rb, pad0, bs, out, hdec, hout, hfuel, hle, hgt => by omega
  | fuel + 1, [], rb, pad0, bs, out, hdec, hout, hfuel, hle, hgt => by
    have hbs : bs = [] := by simpa [hexDecodeList] using hdec.symm
    subst hbs
    simp only [List.length_nil] at hgt
    omega
  | fuel + 1, c :: t, rb, pad0, bs, out, hdec, hout, hfuel, hle, hgt => by
    have hlen := hexDecodeList_length _ _ hdec
    have htd := hexDecodeList_take_drop 16 (c :: t) bs hdec
    rw [show (2 : Nat) * 16 = 32 from rfl] at htd
    have hlt : rb + (bs.take 16).length < 2 ^ 61 := by
      simp only [List.length_take, maxBitLength] at hle ⊢
      omega
    by_cases hgt2 : maxBitLength < (rb + (bs.take 16).length) * 8
    · have hpb := prBlock_chunk_large c t rb pad0 (bs.take 16) htd.1 hlt hgt2
      simp only [compressLoopP, hpb]
    · have hle2 : (rb + (bs.take 16).length) * 8 ≤ maxBitLength := by omega
      have hb16 : 16 ≤ bs.length := by
        by_contra hb
        have hbs : (bs.take 16).length = bs.length := by
          simp only [List.length_take]
          omega
        rw [hbs] at hle2
        omega
      have hn16 : (bs.take 16).length = 16 := by
        simp only [List.length_take]
        omega
      have hpb := prBlock_chunk c t rb pad0 (bs.take 16) htd.1 hlt hle2
      rw [if_pos (show (bs.take 16).length = blockSize from by rw [hn16]; rfl)] at hpb
      have henc := encrypt_eq_mpStep (bs.take 16) out hn16 hout
      have ih := compressLoopP_large fuel ((c :: t).drop 32) (rb + (bs.take 16).length) pad0
        (bs.drop 16) (mpStep out (bs.take 16)) htd.2 (mpStep_length _ _ hout hn16)
        (by simp only [List.length_drop, List.length_cons] at hfuel ⊢; omega)
        (by rw [hn16]; omega)
        (by simp only [List.length_drop]; rw [hn16]; omega)
      simp only [compressLoopP, hpb, henc]
      exact ih

theorem compressLoopP_decode : ∀ (fuel : Nat) (rest : List Char) (rb : Nat) (pad0 : List Nat)
    (out : List Nat),
    hexDecodeList rest = none → out.length = 16 →
    rest.length + 2 ≤ fuel → 8 * (rb + rest.length) ≤ maxBitLength →
    compressLoopP fuel ⟨rest, rb, false, pad0⟩ out = .error .decode
  | 0, rest, rb, pad0, out, hdec, hout, hfuel, hmax => by omega
  | fuel + 1, [], rb, pad0, out, hdec, hout, hfuel, hmax => by
    simp [hexDecodeList] at hdec
  | fuel + 1, c :: t, rb, pad0, out, hdec, hout, hfuel, hmax => by
    cases hchunk : hexDecodeList ((c :: t).take 32) with
    | none =>
      have hpb := prBlock_decodeFail c t rb pad0 hchunk
      simp only [compressLoopP, hpb]
    | some a =>
      have h32 : 32 ≤ (c :: t).length := by
        by_contra hshort
        have heq : (c :: t).take 32 = c :: t := List.take_of_length_le (by omega)
        rw [heq, hdec] at hchunk
        exact Option.noConfusion hchunk
      have hdrop : hexDecodeList ((c :: t).drop 32) = none := by
        cases hd : hexDecodeList ((c :: t).drop 32) with
        | none => rfl
        | some b2 =>
          have := hexDecodeList_combine 16 (c :: t) a b2
            (by rw [show (2 : Nat) * 16 = 32 from rfl]; exact hchunk)
            (by rw [show (2 : Nat) * 16 = 32 from rfl]; exact hd)
          rw [hdec] at this
          exact Option.noConfusion this
      have hclen := hexDecodeList_length _ _ hchunk
      have ha16 : a.length = 16 := by
        rw [List.length_take] at hclen
        omega
      have hlt : rb + a.length < 2 ^ 61 := by
        simp only [maxBitLength] at hmax
        omega
      have hle : (rb + a.length) * 8 ≤ maxBitLength := by
        rw [ha16]
        simp only [maxBitLength] at hmax ⊢
        omega
      have hpb := prBlock_chunk c t rb pad0 a hchunk hlt hle
      rw [if_pos (show a.length = blockSize from by rw [ha16]; rfl)] at hpb
      have henc := encrypt_eq_mpStep a out ha16 hout
      have ih := compressLoopP_decode fuel ((c :: t).drop 32) (rb + a.length) pad0
        (mpStep out a) hdrop (mpStep_length _ _ hout ha16)
        (by simp only [List.length_drop, List.length_cons] at hfuel ⊢; omega)
        (by simp only [List.length_drop]; rw [ha16]
            simp only [maxBitLength] at hmax ⊢
            omega)
      simp only [compressLoopP, hpb, henc]
      exact ih

theorem padLoopP_eof (fuel : Nat) (st : PRState) (h : st.eof = true) (hf : 1 ≤ fuel) :
    padLoopP fuel st = .ok st := by
  obtain ⟨f, rfl⟩ : ∃ f, fuel = f + 1 := ⟨fuel - 1, by omega⟩
  simp [padLoopP, prBlock, h]

theorem padLoopP_ok : ∀ (fuel : Nat) (rest : List Char) (rb : Nat) (pad0 : List Nat)
    (bs : List Nat),
    hexDecodeList rest = some bs →
    rest.length + 2 ≤ fuel → 8 * (rb + bs.length) ≤ maxBitLength →
    ∃ st', padLoopP fuel ⟨rest, rb, false, pad0⟩ = .ok st'
  | 0, rest, rb, pad0, bs, hdec, hfuel, hmax => by omega
  | fuel + 1, [], rb, pad0, bs, hdec, hfuel, hmax => by
    have hbs : bs = [] := by simpa [hexDecodeList] using hdec.symm
    subst hbs
    have hmax' : rb * 8 ≤ maxBitLength := by
      simp only [List.length_nil, maxBitLength] at hmax ⊢
      omega
    have hlt : rb * 8 < 2 ^ 64 := by
      simp only [List.length_nil, maxBitLength] at hmax
      omega
    have hpb := prBlock_nil rb pad0 hlt hmax'
    refine ⟨⟨[], rb, true, padding [] rb⟩, ?_⟩
    simp only [padLoopP, hpb]
    exact padLoopP_eof fuel _ rfl (by simp at hfuel; omega)
  | fuel + 1, c :: t, rb, pad0, bs, hdec, hfuel, hmax => by
    have hlen := hexDecodeList_length _ _ hdec
    have htd := hexDecodeList_take_drop 16 (c :: t) bs hdec
    rw [show (2 : Nat) * 16 = 32 from rfl] at htd
    have hlt : rb + (bs.take 16).length < 2 ^ 61 := by
      simp only [List.length_take, maxBitLength] at hmax ⊢
      omega
    have hle : (rb + (bs.take 16).length) * 8 ≤ maxBitLength := by
      simp only [List.length_take, maxBitLength] at hmax ⊢
      omega
    have hpb := prBlock_chunk c t rb pad0 (bs.take 16) htd.1 hlt hle
    by_cases hb16 : 16 ≤ bs.length
    · rw [if_pos (show (bs.take 16).length = blockSize from by
        simp only [List.length_take, blockSize]; omega)] at hpb
      have ih := padLoopP_ok fuel ((c :: t).drop 32) (rb + (bs.take 16).length) pad0
        (bs.drop 16) htd.2
        (by simp only [List.length_drop, List.length_cons] at hfuel ⊢; omega)
        (by simp only [List.length_drop, List.length_take, maxBitLength] at hmax ⊢; omega)
      obtain ⟨st', hst'⟩ := ih
      refine ⟨st', ?_⟩
      simp only [padLoopP, hpb]
      exact hst'
    · have hbs : bs.take 16 = bs := List.take_of_length_le (by omega)
      have hneq : ¬ ((bs.take 16).length = blockSize) := by
        simp only [List.length_take, blockSize]
        omega
      rw [if_neg hneq, hbs] at hpb
      refine ⟨⟨(c :: t).drop 32, rb + bs.length, true, padding bs (rb + bs.length)⟩, ?_⟩
      simp only [padLoopP, hpb]
      exact padLoopP_eof fuel _ rfl (by simp at hfuel; omega)

theorem padLoopP_large : ∀ (fuel : Nat) (rest : List Char) (rb : Nat) (pad0 : List Nat)
    (bs : List Nat),
    hexDecodeList rest = some bs →
    rest.length + 2 ≤ fuel → 8 * rb ≤ maxBitLength → maxBitLength < 8 * (rb + bs.length) →
    padLoopP fuel ⟨rest, rb, false, pad0⟩ = .error .large
  | 0, rest, rb, pad0, bs, hdec, hfuel, hle, hgt => by omega
  | fuel + 1, [], rb, pad0, bs, hdec, hfuel, hle, hgt => by
    have hbs : bs = [] := by simpa [hexDecodeList] using hdec.symm
    subst hbs
    simp only [List.length_nil] at hgt
    omega
  | fuel + 1, c :: t, rb, pad0, bs, hdec, hfuel, hle, hgt => by
    have hlen := hexDecodeList_length _ _ hdec
    have htd := hexDecodeList_take_drop 16 (c :: t) bs hdec
    rw [show (2 : Nat) * 16 = 32 from rfl] at htd
    have hlt : rb + (bs.take 16).length < 2 ^ 61 := by
      simp only [List.length_take, maxBitLength] at hle ⊢
      omega
    by_cases hgt2 : maxBitLength < (rb + (bs.take 16).length) * 8
    · have hpb := prBlock_chunk_large c t rb pad0 (bs.take 16) htd.1 hlt hgt2
      simp only [padLoopP, hpb]
    · have hle2 : (rb + (bs.take 16).length) * 8 ≤ maxBitLength := by omega
      have hb16 : 16 ≤ bs.length := by
        by_contra hb
        have hbs : (bs.take 16).length = bs.length := by
          simp only [List.length_take]
          omega
        rw [hbs] at hle2
        omega
      have hn16 : (bs.take 16).length = 16 := by
        simp only [List.length_take]
        omega
      have hpb := prBlock_chunk c t rb pad0 (bs.take 16) htd.1 hlt hle2
      rw [if_pos (show (bs.take 16).length = blockSize from by rw [hn16]; rfl)] at hpb
      have ih := padLoopP_large fuel ((c :: t).drop 32) (rb + (bs.take 16).length) pad0
        (bs.drop 16) htd.2
        (by simp only [List.length_drop, List.length_cons] at hfuel ⊢; omega)
        (by rw [hn16]; omega)
        (by simp only [List.length_drop]; rw [hn16]; omega)
      simp only [padLoopP, hpb]
      exact ih

theorem padLoopP_decode : ∀ (fuel : Nat) (rest : List Char) (rb : Nat) (pad0 : List Nat),
    hexDecodeList rest = none →
    rest.length + 2 ≤ fuel → 8 * (rb + rest.length) ≤ maxBitLength →
    padLoopP fuel ⟨rest, rb, false, pad0⟩ = .error .decode
  | 0, rest, rb, pad0, hdec, hfuel, hmax => by omega
  | fuel + 1, [], rb, pad0, hdec, hfuel, hmax => by
    simp [hexDecodeList] at hdec
  | fuel + 1, c :: t, rb, pad0, hdec, hfuel, hmax => by
    cases hchunk : hexDecodeList ((c :: t).take 32) with
    | none =>
      have hpb := prBlock_decodeFail c t rb pad0 hchunk
      simp only [padLoopP, hpb]
    | some a =>
      have h32 : 32 ≤ (c :: t).length := by
        by_contra hshort
        have heq : (c :: t).take 32 = c :: t := List.take_of_length_le (by omega)
        rw [heq, hdec] at hchunk
        exact Option.noConfusion hchunk
      have hdrop : hexDecodeList ((c :: t).drop 32) = none := by
        cases hd : hexDecodeList ((c :: t).drop 32) with
        | none => rfl
        | some b2 =>
          have := hexDecodeList_combine 16 (c :: t) a b2
            (by rw [show (2 : Nat) * 16 = 32 from rfl]; exact hchunk)
            (by rw [show (2 : Nat) * 16 = 32 from rfl]; exact hd)
          rw [hdec] at this
          exact Option.noConfusion this
      have hclen := hexDecodeList_length _ _ hchunk
      have ha16 : a.length = 16 := by
        rw [List.length_take] at hclen
        omega
      have hlt : rb + a.length < 2 ^ 61 := by
        simp only [maxBitLength] at hmax
        omega
      have hle : (rb + a.length) * 8 ≤ maxBitLength := by
        rw [ha16]
        simp only [maxBitLength] at hmax ⊢
        omega
      have hpb := prBlock_chunk c t rb pad0 a hchunk hlt hle
      rw [if_pos (show a.length = blockSize from by rw [ha16]; rfl)] at hpb
      have ih := padLoopP_decode fuel ((c :: t).drop 32) (rb + a.length) pad0 hdrop
        (by simp only [List.length_drop, List.length_cons] at hfuel ⊢; omega)
        (by simp only [List.length_drop]; rw [ha16]
            simp only [maxBitLength] at hmax ⊢
            omega)
      simp only [padLoopP, hpb]
      exact ih

theorem npLoop_decode : ∀ (fuel : Nat) (rest : List Char) (out : List Nat),
    hexDecodeList rest = none → out.length = 16 → rest.length + 1 ≤ fuel →
    npLoop fuel rest out = .error .decode
  | 0, rest, out, hdec, hout, hfuel => by omega
  | fuel + 1, [], out, hdec, hout, hfuel => by
    simp [hexDecodeList] at hdec
  | fuel + 1, c :: t, out, hdec, hout, hfuel => by
    cases hchunk : hexDecodeList ((c :: t).take 32) with
    | none =>
      have hpb := npBlock_decodeFail c t hchunk
      simp only [npLoop, hpb]
    | some a =>
      have h32 : 32 ≤ (c :: t).length := by
        by_contra hshort
        have heq : (c :: t).take 32 = c :: t := List.take_of_length_le (by omega)
        rw [heq, hdec] at hchunk
        exact Option.noConfusion hchunk
      have hdrop : hexDecodeList ((c :: t).drop 32) = none := by
        cases hd : hexDecodeList ((c :: t).drop 32) with
        | none => rfl
        | some b2 =>
          have := hexDecodeList_combine 16 (c :: t) a b2
            (by rw [show (2 : Nat) * 16 = 32 from rfl]; exact hchunk)
            (by rw [show (2 : Nat) * 16 = 32 from rfl]; exact hd)
          rw [hdec] at this
          exact Option.noConfusion this
      have hclen := hexDecodeList_length _ _ hchunk
      have ha16 : a.length = 16 := by
        rw [List.length_take] at hclen
        omega
      have hpb := npBlock_chunk c t a hchunk
      rw [if_neg (show ¬ (a.length < blockSize) from by rw [ha16, blockSize]; omega)] at hpb
      have henc := encrypt_eq_mpStep a out ha16 hout
      have ih := npLoop_decode fuel ((c :: t).drop 32) (mpStep out a) hdrop
        (mpStep_length _ _ hout ha16)
        (by simp only [List.length_drop, List.length_cons] at hfuel ⊢; omega)
      simp only [npLoop, hpb, henc]
      exact ih

theorem npLoop_needPad : ∀ (fuel : Nat) (rest : List Char) (bs out : List Nat),
    hexDecodeList rest = some bs → bs.length % 16 ≠ 0 → out.length = 16 →
    rest.length + 1 ≤ fuel →
    npLoop fuel rest out = .error .needPad
  | 0, rest, bs, out, hdec, hali, hout, hfuel => by omega
  | fuel + 1, [], bs, out, hdec, hali, hout, hfuel => by
    have hbs : bs = [] := by simpa [hexDecodeList] using hdec.symm
    subst hbs
    simp at hali
  | fuel + 1, c :: t, bs, out, hdec, hali, hout, hfuel => by
    have hlen := hexDecodeList_length _ _ hdec
    have htd := hexDecodeList_take_drop 16 (c :: t) bs hdec
    rw [show (2 : Nat) * 16 = 32 from rfl] at htd
    have hpb := npBlock_chunk c t (bs.take 16) htd.1
    by_cases hb16 : 16 ≤ bs.length
    · have hn16 : (bs.take 16).length = 16 := by
        simp only [List.length_take]
        omega
      rw [if_neg (show ¬ ((bs.take 16).length < blockSize) from by
        rw [hn16, blockSize]; omega)] at hpb
      have henc := encrypt_eq_mpStep (bs.take 16) out hn16 hout
      have ih := npLoop_needPad fuel ((c :: t).drop 32) (bs.drop 16) (mpStep out (bs.take 16))
        htd.2 (by simp only [List.length_drop]; omega) (mpStep_length _ _ hout hn16)
        (by simp only [List.length_drop, List.length_cons] at hfuel ⊢; omega)
      simp only [npLoop, hpb, henc]
      exact ih
    · have hbs : bs.take 16 = bs := List.take_of_length_le (by omega)
      rw [hbs] at hpb
      rw [if_pos (show bs.length < blockSize from by rw [blockSize]; omega)] at hpb
      simp only [npLoop, hpb]


theorem compressLoopP_malformed : ∀ (fuel : Nat) (rest : List Char) (rb : Nat)
    (pad0 : List Nat) (out : List Nat),
    hexDecodeList rest = none → out.length = 16 →
    rest.length + 2 ≤ fuel → rb * 8 ≤ maxBitLength →
    compressLoopP fuel ⟨rest, rb, false, pad0⟩ out = .error .decode ∨
    compressLoopP fuel ⟨rest, rb, false, pad0⟩ out = .error .large
  | 0, rest, rb, pad0, out, hdec, hout, hfuel, hrb => by omega
  | fuel + 1, [], rb, pad0, out, hdec, hout, hfuel, hrb => by
    simp [hexDecodeList] at hdec
  | fuel + 1, c :: t, rb, pad0, out, hdec, hout, hfuel, hrb => by
    cases hchunk : hexDecodeList ((c :: t).take 32) with
    | none =>
      have hpb := prBlock_decodeFail c t rb pad0 hchunk
      left
      simp only [compressLoopP, hpb]
    | some a =>
      have h32 : 32 ≤ (c :: t).length := by
        by_contra hshort
        have heq : (c :: t).take 32 = c :: t := List.take_of_length_le (by omega)
        rw [heq, hdec] at hchunk
        exact Option.noConfusion hchunk
      have hdrop : hexDecodeList ((c :: t).drop 32) = none := by
        cases hd : hexDecodeList ((c :: t).drop 32) with
        | none => rfl
        | some b2 =>
          have := hexDecodeList_combine 16 (c :: t) a b2
            (by rw [show (2 : Nat) * 16 = 32 from rfl]; exact hchunk)
            (by rw [show (2 : Nat) * 16 = 32 from rfl]; exact hd)
          rw [hdec] at this
          exact Option.noConfusion this
      have hclen := hexDecodeList_length _ _ hchunk
      have ha16 : a.length = 16 := by
        rw [List.length_take] at hclen
        omega
      have hlt : rb + a.length < 2 ^ 61 := by
        simp only [maxBitLength] at hrb
        omega
      by_cases hle : (rb + a.length) * 8 ≤ maxBitLength
      · have hpb := prBlock_chunk c t rb pad0 a hchunk hlt hle
        rw [if_pos (show a.length = blockSize from by rw [ha16]; rfl)] at hpb
        have henc := encrypt_eq_mpStep a out ha16 hout
        have ih := compressLoopP_malformed fuel ((c :: t).drop 32) (rb + a.length) pad0
          (mpStep out a) hdrop (mpStep_length _ _ hout ha16)
          (by simp only [List.length_drop, List.length_cons] at hfuel ⊢; omega)
          (by omega)
        cases ih with
        | inl h => left; simp only [compressLoopP, hpb, henc]; exact h
        | inr h => right; simp only [compressLoopP, hpb, henc]; exact h
      · have hpb := prBlock_chunk_large c t rb pad0 a hchunk hlt (by omega)
        right
        simp only [compressLoopP, hpb]

theorem padLoopP_malformed : ∀ (fuel : Nat) (rest : List Char) (rb : Nat) (pad0 : List Nat),
    hexDecodeList rest = none →
    rest.length + 2 ≤ fuel → rb * 8 ≤ maxBitLength →
    padLoopP fuel ⟨rest, rb, false, pad0⟩ = .error .decode ∨
    padLoopP fuel ⟨rest, rb, false, pad0⟩ = .error .large
  | 0, rest, rb, pad0, hdec, hfuel, hrb => by omega
  | fuel + 1, [], rb, pad0, hdec, hfuel, hrb => by
    simp [hexDecodeList] at hdec
  | fuel + 1, c :: t, rb, pad0, hdec, hfuel, hrb => by
    cases hchunk : hexDecodeList ((c :: t).take 32) with
    | none =>
      have hpb := prBlock_decodeFail c t rb pad0 hchunk
      left
      simp only [padLoopP, hpb]
    | some a =>
      have h32 : 32 ≤ (c :: t).length := by
        by_contra hshort
        have heq : (c :: t).take 32 = c :: t := List.take_of_length_le (by omega)
        rw [heq, hdec] at hchunk
        exact Option.noConfusion hchunk
      have hdrop : hexDecodeList ((c :: t).drop 32) = none := by
        cases hd : hexDecodeList ((c :: t).drop 32) with
        | none => rfl
        | some b2 =>
          have := hexDecodeList_combine 16 (c :: t) a b2
            (by rw [show (2 : Nat) * 16 = 32 from rfl]; exact hchunk)
            (by rw [show (2 : Nat) * 16 = 32 from rfl]; exact hd)
          rw [hdec] at this
          exact Option.noConfusion this
      have hclen := hexDecodeList_length _ _ hchunk
      have ha16 : a.length = 16 := by
        rw [List.length_take] at hclen
        omega
      have hlt : rb + a.length < 2 ^ 61 := by
        simp only [maxBitLength] at hrb
        omega
      by_cases hle : (rb + a.length) * 8 ≤ maxBitLength
      · have hpb := prBlock_chunk c t rb pad0 a hchunk hlt hle
        rw [if_pos (show a.length = blockSize from by rw [ha16]; rfl)] at hpb
        have ih := padLoopP_malformed fuel ((c :: t).drop 32) (rb + a.length) pad0 hdrop
          (by simp only [List.length_drop, List.length_cons] at hfuel ⊢; omega)
          (by omega)
        cases ih with
        | inl h => left; simp only [padLoopP, hpb]; exact h
        | inr h => right; simp only [padLoopP, hpb]; exact h
      · have hpb := prBlock_chunk_large c t rb pad0 a hchunk hlt (by omega)
        right
        simp only [padLoopP, hpb]

set_option maxRecDepth 400000 in
/-- C1 (code bug): for the 11-byte message of zero bytes, remainder plus
padding is 32 bytes (two 16-byte blocks), but Compress performs exactly one
chaining step, on the first 16 bytes only, and silently drops the second
block, which carries the 40-bit length field.  The theorem shows: (1) the
code's output is a single chaining step on the truncated block; (2) the
repository's own Padding emits the full 21-byte padding, so feeding
message plus padding to the repository's own CompressWithoutPadding yields
the spec-side two-block fold; (3) that value differs from what Compress
returns, so the final block of the padded portion is omitted, contradicting
the claim. -/
theorem claim_C1 :
    Compress c1input =
      .ok (hexEncode (mpStep (List.replicate 16 0)
        ((List.replicate 11 0) ++ (padding (List.replicate 11 0) 11).take 5))) ∧
    Padding c1input = .ok (hexEncode (padding (List.replicate 11 0) 11)) ∧
    (padding (List.replicate 11 0) 11).length = 21 ∧
    CompressWithoutPadding (c1input ++ hexEncode (padding (List.replicate 11 0) 11)) =
      .ok (hexEncode (sheCompressSpec (List.replicate 11 0))) ∧
    Compress c1input ≠ .ok (hexEncode (sheCompressSpec (List.replicate 11 0))) := by
  refine ⟨by decide, by decide, by decide, by decide, by decide⟩

set_option maxRecDepth 200000 in
/-- C3: the chaining step of the code, applied to a 16-byte state S and a
16-byte block B, returns S XOR (E XOR B) where E is the AES-128 encryption
of B under key S (this is mpStep); and the chain starts from the all-zero
16-byte state, as exhibited by Compress on the empty message, whose single
chaining step is applied to the all-zero state. -/
theorem claim_C3 :
    (∀ S B : List Nat, S.length = 16 → B.length = 16 → encrypt B S = .ok (mpStep S B)) ∧
    Compress [] = .ok (hexEncode (mpStep (List.replicate 16 0) (padding [] 0))) := by
  constructor
  · intro S B hS hB
    exact encrypt_eq_mpStep B S hB hS
  · decide

set_option maxRecDepth 200000 in
/-- Witness for C3 at the all-zero state and block. -/
theorem claim_C3_witness :
    encrypt (List.replicate 16 0) (List.replicate 16 0) =
      .ok (mpStep (List.replicate 16 0) (List.replicate 16 0)) :=
  claim_C3.1 (List.replicate 16 0) (List.replicate 16 0) (by decide) (by decide)

/-- C4 counterexample: the claim describes the test-vector input as "one
full block plus a 1-byte remainder" (17 bytes), but it decodes to 32 bytes,
i.e. two full 16-byte blocks with an empty remainder. -/
theorem claim_C4_counterexample :
    (hexDecodeList c4input).map List.length = some 32 ∧
    (hexDecodeList c4input).map List.length ≠ some 17 := by
  decide

set_option maxRecDepth 200000 in
/-- C4 amended: Compress applied to the hex input
6bc1bee22e409f96e93d7e117393172aae2d8a571e03ac9c9eb76fac45af8e51 (two full
blocks and an empty remainder) returns the 16-byte output whose hex
encoding is c7277a0dc1fb853b5f4d9cbd26be40c6. -/
theorem claim_C4 : Compress c4input = .ok (("c7277a0dc1fb853b5f4d9cbd26be40c6").toList) := by
  decide

/-- C7: for every well-formed hex input, Compress and Padding fail with the
distinct error ErrLargePlainText exactly when the decoded message's total
bit-length exceeds 2 ^ 40 - 1 (i.e. maxBitLength); any input whose
bit-length is within the bound, the boundary included, succeeds without
error. -/
theorem claim_C7 (s : List Char) (bs : List Nat) (hdec : hexDecodeList s = some bs) :
    (maxBitLength < 8 * bs.length →
      Compress s = .error .large ∧ Padding s = .error .large) ∧
    (8 * bs.length ≤ maxBitLength →
      (∃ o, Compress s = .ok o) ∧ (∃ o, Padding s = .ok o)) := by
  constructor
  · intro hgt
    constructor
    · have h := compressLoopP_large (s.length + 3) s 0 [] bs (List.replicate blockSize 0)
        hdec (by simp [blockSize]) (by omega) (by omega) (by simpa using hgt)
      simp only [Compress, initPR, h]
    · have h := padLoopP_large (s.length + 3) s 0 [] bs hdec (by omega) (by omega)
        (by simpa using hgt)
      simp only [Padding, initPR, h]
  · intro hle
    constructor
    · obtain ⟨o, ho, _⟩ := compressLoopP_ok (s.length + 3) s 0 [] bs
        (List.replicate blockSize 0) hdec (by simp [blockSize]) (by omega) (by simpa using hle)
      exact ⟨hexEncode o, by simp only [Compress, initPR, ho]⟩
    · obtain ⟨st', hst'⟩ := padLoopP_ok (s.length + 3) s 0 [] bs hdec (by omega)
        (by simpa using hle)
      exact ⟨hexEncode st'.pad, by simp only [Padding, initPR, hst']⟩

/-- Witness for C7 at the concrete one-byte input "00". -/
theorem claim_C7_witness :
    (∃ o, Compress (("00").toList) = .ok o) ∧ (∃ o, Padding (("00").toList) = .ok o) :=
  (claim_C7 (("00").toList) [0] (by decide)).2 (by decide)

/-- C8: CompressWithoutPadding fails with ErrNeedPadding for every input
whose decoded byte sequence is not a multiple of 16 bytes (the final chunk
is shorter than one block); the short chunk is never padded and compressed. -/
theorem claim_C8 (s : List Char) (bs : List Nat) (hdec : hexDecodeList s = some bs)
    (hali : bs.length % 16 ≠ 0) :
    CompressWithoutPadding s = .error .needPad := by
  have h := npLoop_needPad (s.length + 2) s bs (List.replicate blockSize 0) hdec hali
    (by simp [blockSize]) (by omega)
  simp only [CompressWithoutPadding, h]

/-- Witness for C8 at the concrete one-byte input "00". -/
theorem claim_C8_witness : CompressWithoutPadding (("00").toList) = .error .needPad :=
  claim_C8 (("00").toList) [0] (by decide) (by decide)

/-- C9: any input with an odd number of hex digits or a non-hex character
(whitespace and line terminators included) makes hexadecimal decoding fail;
Compress, Padding and CompressWithoutPadding all propagate the decode error
and never succeed on malformed input.  CompressWithoutPadding always reports
the decode error itself; Compress and Padding report it for any input of at
most 2 ^ 36 hex characters, and on larger malformed inputs the only other
possible outcome is the length-limit error, never success. -/
theorem claim_C9 (s : List Char) (hdec : hexDecodeList s = none) :
    CompressWithoutPadding s = .error .decode ∧
    (Compress s = .error .decode ∨ Compress s = .error .large) ∧
    (Padding s = .error .decode ∨ Padding s = .error .large) ∧
    (s.length ≤ 2 ^ 36 → Compress s = .error .decode ∧ Padding s = .error .decode) := by
  refine ⟨?_, ?_, ?_, ?_⟩
  · have h := npLoop_decode (s.length + 2) s (List.replicate blockSize 0) hdec
      (by simp [blockSize]) (by omega)
    simp only [CompressWithoutPadding, h]
  · have h := compressLoopP_malformed (s.length + 3) s 0 [] (List.replicate blockSize 0) hdec
      (by simp [blockSize]) (by omega) (by omega)
    cases h with
    | inl h => left; simp only [Compress, initPR, h]
    | inr h => right; simp only [Compress, initPR, h]
  · have h := padLoopP_malformed (s.length + 3) s 0 [] hdec (by omega) (by omega)
    cases h with
    | inl h => left; simp only [Padding, initPR, h]
    | inr h => right; simp only [Padding, initPR, h]
  · intro hlen
    constructor
    · have h := compressLoopP_decode (s.length + 3) s 0 [] (List.replicate blockSize 0) hdec
        (by simp [blockSize]) (by omega) (by simp only [maxBitLength]; omega)
      simp only [Compress, initPR, h]
    · have h := padLoopP_decode (s.length + 3) s 0 [] hdec (by omega)
        (by simp only [maxBitLength]; omega)
      simp only [Padding, initPR, h]

/-- Witness for C9 at the concrete malformed input "0g". -/
theorem claim_C9_witness :
    CompressWithoutPadding (("0g").toList) = .error .decode ∧
    Compress (("0g").toList) = .error .decode ∧
    Padding (("0g").toList) = .error .decode := by
  have h := claim_C9 (("0g").toList) (by decide)
  exact ⟨h.1, (h.2.2.2 (by decide)).1, (h.2.2.2 (by decide)).2⟩

/-- C10: CompressWithoutPadding on the empty input succeeds and returns the
hex encoding of the all-zero initial chaining state, 32 zero characters,
because the compression loop performs no chaining step. -/
theorem claim_C10 : CompressWithoutPadding [] = .ok (List.replicate 32 '0') := by
  decide

end Shecomp
